import Mathlib

/-!
Verification of the PDF-scraper program (src/main.py): link extraction,
filename resolution and sanitization, the content-type and existence gates
of the downloader, and the driver loop.  Python strings are modelled as
Lean strings and lists of characters; the filesystem and HTTP transport are
modelled as explicit state values.
-/

/-- Python str.lower on one character, ASCII range (the filenames and header
values handled by the program are ASCII; this is also exactly what core
Char.toLower computes). -/
def lowerChar (c : Char) : Char := Char.toLower c

/-- Is the character in the class [a-z0-9] used by the sanitizing regex. -/
def isLowerAlnum (c : Char) : Bool :=
  (97 ≤ c.toNat && c.toNat ≤ 122) || (48 ≤ c.toNat && c.toNat ≤ 57)

/-- One step of re.sub r"[^a-z0-9]" by an underscore: characters in the
class are kept, every other character becomes an underscore. -/
def subChar (c : Char) : Char := if isLowerAlnum c then c else '_'

/-- re.sub r"_+" by a single underscore: collapse each maximal run of
underscores to one underscore. -/
def collapseUS : List Char → List Char
  | [] => []
  | [c] => [c]
  | a :: b :: rest =>
    if a == '_' && b == '_' then collapseUS (b :: rest)
    else a :: collapseUS (b :: rest)

/-- Remove a trailing run of underscores (the right half of str.strip of an
underscore). -/
def dropTrailingUS : List Char → List Char
  | [] => []
  | c :: rest =>
    match dropTrailingUS rest with
    | [] => if c == '_' then [] else [c]
    | r => c :: r

/-- Python str.strip of an underscore: remove leading and trailing runs of
underscores. -/
def stripUS (l : List Char) : List Char :=
  dropTrailingUS (l.dropWhile (fun c => c == '_'))

/-- The stem transformation of the sanitizer in download_pdf: lower-case,
replace characters outside [a-z0-9] by underscore, collapse runs of
underscores, strip edge underscores. -/
def sanStem (n : List Char) : List Char :=
  stripUS (collapseUS (n.map (fun c => subChar (lowerChar c))))

/-- Split a list at the last occurrence of a character: returns the part
before it and the suffix starting with it, or none when absent. -/
def splitLast (c : Char) : List Char → Option (List Char × List Char)
  | [] => none
  | a :: rest =>
    match splitLast c rest with
    | some (pre, suf) => some (a :: pre, suf)
    | none => if a == c then some ([], a :: rest) else none

/-- os.path.splitext on the basename part: split at the last dot, except
that a basename whose characters before the last dot are all dots (a leading
dot-run only, such as ".pdf") has no extension. -/
def splitextBase (base : List Char) : List Char × List Char :=
  match splitLast '.' base with
  | some (pre, suf) => if pre.any (fun c => c != '.') then (pre, suf) else (base, [])
  | none => (base, [])

/-- os.path.splitext (POSIX): the extension lives in the part after the last
slash. -/
def splitextList (p : List Char) : List Char × List Char :=
  match splitLast '/' p with
  | some (pre, suf) =>
    match suf with
    | sep :: base =>
      let r := splitextBase base
      (pre ++ sep :: r.1, r.2)
    | [] => (p, [])
  | none => splitextBase p

/-- The filename sanitizer of download_pdf: split into stem and extension
with os.path.splitext, sanitize the stem, lower-case the extension and
recombine. -/
def sanitizeFilename (f : String) : String :=
  let r := splitextList f.data
  String.mk (sanStem r.1 ++ r.2.map lowerChar)

/-- Characters allowed in a sanitized stem. -/
def stemCharOk (c : Char) : Bool := isLowerAlnum c || c == '_'

/-- No two adjacent underscores. -/
def noDoubleUS : List Char → Bool
  | [] => true
  | [_] => true
  | a :: b :: rest => !(a == '_' && b == '_') && noDoubleUS (b :: rest)

/-- The optional character is not an underscore. -/
def notUSopt : Option Char → Bool
  | some c => c != '_'
  | none => true

/-- Last element of a list of characters, if any. -/
def lastOpt : List Char → Option Char
  | [] => none
  | [c] => some c
  | _ :: b :: rest => lastOpt (b :: rest)

/-- Neither the first nor the last character is an underscore. -/
def noEdgeUS (l : List Char) : Bool := notUSopt l.head? && notUSopt (lastOpt l)


/-! ## Generic list and string helpers -/

/-- Does the pattern occur at the head of the list. -/
def startsWithList (pat s : List Char) : Bool :=
  match pat, s with
  | [], _ => true
  | _ :: _, [] => false
  | p :: ps, x :: xs => p == x && startsWithList ps xs

/-- Python substring membership: the first argument occurs inside the
second. -/
def strIn (pat s : List Char) : Bool :=
  match s with
  | [] => pat.isEmpty
  | _ :: rest => startsWithList pat s || strIn pat rest

/-- Python str.endswith: the first argument is a suffix of the second. -/
def endsWithList (suf l : List Char) : Bool :=
  startsWithList suf.reverse l.reverse

/-- Everything before the first occurrence of the character (the whole list
when absent). -/
def takeUntilChar (c : Char) (l : List Char) : List Char :=
  l.takeWhile (fun x => x != c)

/-- Python str.lower over a string, ASCII range. -/
def lowerStr (s : String) : String := String.mk (s.data.map lowerChar)

/-! ## URL path extraction: urllib.parse.urlparse(url).path and
os.path.basename, as used by the fallback branch of download_pdf -/

/-- A character allowed in a URL scheme by urllib.parse. -/
def isSchemeChar (c : Char) : Bool :=
  c.isAlpha || c.isDigit || c == '+' || c == '-' || c == '.'

/-- Strip a leading scheme (letters followed by a colon) the way
urllib.parse.urlsplit does: the part before the first colon must be
non-empty, start with an ASCII letter and consist of scheme characters. -/
def dropScheme (u : List Char) : List Char :=
  let pre := takeUntilChar ':' u
  if pre.length < u.length
     && !pre.isEmpty
     && (match pre with | c :: _ => c.isAlpha | [] => false)
     && pre.all isSchemeChar
  then u.drop (pre.length + 1)
  else u

/-- Strip a leading "//netloc" the way urlsplit does: the netloc extends to
the first slash, question mark or hash. -/
def dropNetloc (u : List Char) : List Char :=
  match u with
  | '/' :: '/' :: rest =>
    rest.dropWhile (fun c => c != '/' && c != '?' && c != '#')
  | _ => u

/-- urlparse splits parameters from the last path segment: when the path
contains a semicolon, everything from the first semicolon at or after the
last slash (or from the first semicolon when there is no slash) is removed. -/
def splitParams (path : List Char) : List Char :=
  if path.contains ';' then
    match splitLast '/' path with
    | some (pre, suf) => pre ++ takeUntilChar ';' suf
    | none => takeUntilChar ';' path
  else path

/-- The path component of urllib.parse.urlparse: drop the fragment, the
scheme, the network location, the query, and the parameters. -/
def urlparsePath (url : List Char) : List Char :=
  splitParams (takeUntilChar '?' (dropNetloc (dropScheme (takeUntilChar '#' url))))

/-- os.path.basename (POSIX): the part after the last slash. -/
def osBasename (p : List Char) : List Char :=
  match splitLast '/' p with
  | some (_, suf) => suf.tail
  | none => p

/-- The last path segment of a source URL, as computed by the fallback
branch of download_pdf. -/
def lastPathSegment (url : String) : List Char :=
  osBasename (urlparsePath url.data)

/-- The URL-fallback filename of download_pdf: the last path segment of the
URL, with ".pdf" appended when it does not already end in ".pdf" (an exact,
case-sensitive endswith test, as in the source). -/
def fallbackFilename (url : String) : String :=
  let base := lastPathSegment url
  if endsWithList ".pdf".data base then String.mk base
  else String.mk (base ++ ".pdf".data)


/-! ## Content-Disposition header patterns

The source consults two regular expressions with re.search and
re.IGNORECASE.  Both are deterministic once a start position is fixed
(each quantified class excludes the character that must follow it), so
they are modelled as a greedy match attempted at every start position from
the left. -/

/-- The single-quote character. -/
def sqChar : Char := Char.ofNat 39

/-- Python regex whitespace, ASCII range. -/
def isSpaceRE (c : Char) : Bool :=
  c == ' ' || c == '\t' || c == '\n' || c == '\r'
    || c == Char.ofNat 11 || c == Char.ofNat 12

/-- Case-insensitive literal match; returns the rest of the input on
success. -/
def matchLitCI (lit s : List Char) : Option (List Char) :=
  match lit, s with
  | [], _ => some s
  | _ :: _, [] => none
  | c :: cs, x :: xs =>
    if c.toLower == x.toLower then matchLitCI cs xs else none

/-- A character allowed inside the capture of the extended pattern (the
class excluding semicolon, carriage return and newline). -/
def extCapChar (c : Char) : Bool := c != ';' && c != '\r' && c != '\n'

/-- A character allowed inside the capture of the simple pattern (the class
additionally excluding the double quote). -/
def simpleCapChar (c : Char) : Bool := c != '"' && extCapChar c

/-- Try the extended pattern at one position: literal filename* (case
insensitive), optional spaces, equals sign, optional spaces, a run of
non-quote characters, two single quotes, then capture one or more
characters other than semicolon, carriage return and newline. -/
def matchExtAt (s : List Char) : Option (List Char) :=
  match matchLitCI "filename*".data s with
  | none => none
  | some s1 =>
    match s1.dropWhile isSpaceRE with
    | '=' :: s3 =>
      match (s3.dropWhile isSpaceRE).dropWhile (fun c => c != sqChar) with
      | q1 :: q2 :: s6 =>
        if q1 == sqChar && q2 == sqChar then
          let cap := s6.takeWhile extCapChar
          if cap.isEmpty then none else some cap
        else none
      | _ => none
    | _ => none

/-- re.search for the extended pattern: leftmost matching start position. -/
def searchExt : List Char → Option (List Char)
  | [] => none
  | s@(_ :: rest) =>
    match matchExtAt s with
    | some cap => some cap
    | none => searchExt rest

/-- Try the simple pattern at one position: literal filename (case
insensitive), optional spaces, equals sign, optional spaces, an optional
double quote, then capture one or more characters other than double quote,
semicolon, carriage return and newline. -/
def matchSimpleAt (s : List Char) : Option (List Char) :=
  match matchLitCI "filename".data s with
  | none => none
  | some s1 =>
    match s1.dropWhile isSpaceRE with
    | '=' :: s3 =>
      let s4 := s3.dropWhile isSpaceRE
      let s5 := match s4 with
        | '"' :: t => t
        | t => t
      let cap := s5.takeWhile simpleCapChar
      if cap.isEmpty then none else some cap
    | _ => none

/-- re.search for the simple pattern: leftmost matching start position. -/
def searchSimple : List Char → Option (List Char)
  | [] => none
  | s@(_ :: rest) =>
    match matchSimpleAt s with
    | some cap => some cap
    | none => searchSimple rest

/-- Python str.strip of the double-quote character: remove leading and
trailing runs of double quotes. -/
def stripQuotes (l : List Char) : List Char :=
  ((l.dropWhile (fun c => c == '"')).reverse.dropWhile (fun c => c == '"')).reverse

/-- The filename-resolution path of download_pdf, before sanitization: the
extended Content-Disposition parameter, else the simple parameter, else the
URL fallback. -/
def resolveRawFilename (cd url : String) : String :=
  match searchExt cd.data with
  | some cap => String.mk (stripQuotes cap)
  | none =>
    match searchSimple cd.data with
    | some cap => String.mk (stripQuotes cap)
    | none => fallbackFilename url


/-! ## Link extraction: parse_html

The markup parser (BeautifulSoup) is an external collaborator; the program
logic operates on the ordered sequence of anchor tags it yields.  An anchor
carries an optional href attribute; find_all with href set keeps those that
have one. -/

/-- The value of one hexadecimal digit, accepting both cases. -/
def hexVal (c : Char) : Option Nat :=
  if 48 ≤ c.toNat && c.toNat ≤ 57 then some (c.toNat - 48)
  else if 97 ≤ c.toNat && c.toNat ≤ 102 then some (c.toNat - 87)
  else if 65 ≤ c.toNat && c.toNat ≤ 70 then some (c.toNat - 55)
  else none

/-- urllib.parse.unquote over the ASCII range: a percent sign followed by
two hexadecimal digits becomes the character with that code; an invalid
escape is kept verbatim.  (Multi-byte UTF-8 percent sequences are outside
the modelled ASCII range.) -/
def unquoteChars : List Char → List Char
  | [] => []
  | '%' :: a :: b :: rest =>
    match hexVal a, hexVal b with
    | some x, some y => Char.ofNat (16 * x + y) :: unquoteChars rest
    | _, _ => '%' :: unquoteChars (a :: b :: rest)
  | c :: rest => c :: unquoteChars rest

/-- An anchor tag as delivered by the markup parser. -/
structure Anchor where
  href : Option String
deriving DecidableEq

/-- The hrefs of the anchors that carry one, in document order (find_all
with the href filter, then the attribute lookup). -/
def hrefValues (tags : List Anchor) : List String :=
  tags.filterMap (fun t => t.href)

/-- The suffix test of parse_html: percent-decode the href, lower-case it,
and test for the literal suffix ".pdf". -/
def pdfHrefTest (href : String) : Bool :=
  endsWithList ".pdf".data ((unquoteChars href.data).map lowerChar)

/-- parse_html: loop over the anchors bearing an href and append the
original href value whenever its decoded, lower-cased form ends in
".pdf". -/
def parse_html : List Anchor → List String
  | [] => []
  | t :: rest =>
    match t.href with
    | none => parse_html rest
    | some href =>
      if pdfHrefTest href then href :: parse_html rest
      else parse_html rest


/-! ## The downloader and the driver loop

The HTTP transport and the filesystem are external collaborators; they are
modelled as explicit values.  A fetch either fails at the transport level
(connection error, timeout or a bad status raised by raise_for_status) or
yields a response with headers and a chunked body.  A possible fault of the
file-open step models the catch-all branch of the source. -/

/-- An HTTP response: headers and the chunked body of iter_content. -/
structure HttpResponse where
  headers : List (String × String)
  body : List (List Nat)
deriving DecidableEq

/-- Result of the streaming GET issued by download_pdf. -/
inductive FetchResult where
  | success (resp : HttpResponse)
  | failure (reason : String)
deriving DecidableEq

/-- The local filesystem: files with contents, and directories. -/
structure FileSystem where
  files : List (String × List Nat)
  dirs : List String
deriving DecidableEq

/-- The outcome of one download attempt. -/
inductive Outcome where
  | downloaded (filename : String)
  | skippedExisting (filename : String)
  | skippedNotPdf
  | fetchFailed (reason : String)
  | unexpectedError (reason : String)
deriving DecidableEq

/-- Case-insensitive header lookup with a default, as on the
case-insensitive header dictionary of the requests library. -/
def headerGet (headers : List (String × String)) (key : String) : String :=
  match headers.find? (fun kv => lowerStr kv.1 == lowerStr key) with
  | some kv => kv.2
  | none => ""

/-- os.path.exists: the path names an existing file or directory. -/
def pathExists (fs : FileSystem) (p : String) : Bool :=
  fs.files.any (fun f => f.1 == p) || fs.dirs.any (fun d => d == p)

/-- os.makedirs with exist_ok: record the directory if it is new. -/
def makedirs (fs : FileSystem) (d : String) : FileSystem :=
  if fs.dirs.any (fun x => x == d) then fs else { fs with dirs := d :: fs.dirs }

/-- os.path.join for the paths at hand: an absolute second component wins;
otherwise the two parts are joined with a slash unless the first already
ends in one or is empty. -/
def osJoin (dir filename : String) : String :=
  if startsWithList "/".data filename.data then filename
  else if dir.data = [] then filename
  else if endsWithList "/".data dir.data then dir ++ filename
  else dir ++ "/" ++ filename

/-- The content-type gate of download_pdf: "application/pdf" occurs in the
lower-cased Content-Type header. -/
def contentTypeOk (resp : HttpResponse) : Bool :=
  strIn "application/pdf".data (lowerStr (headerGet resp.headers "Content-Type")).data

/-- The filename a successful response resolves to: Content-Disposition
parameters or URL fallback, then sanitization. -/
def resolvedFilename (resp : HttpResponse) (url : String) : String :=
  sanitizeFilename (resolveRawFilename (headerGet resp.headers "Content-Disposition") url)

/-- The bytes written by the chunk loop: empty chunks are skipped. -/
def writtenContent (resp : HttpResponse) : List Nat :=
  (resp.body.filter (fun c => !c.isEmpty)).flatten

/-- download_pdf over the modelled transport and filesystem.  The openFault
flag models an operating-system fault at the file-open step, reaching the
catch-all branch of the source. -/
def download_pdf (fetch : FetchResult) (url downloadDir : String)
    (fs : FileSystem) (openFault : Bool) : Outcome × FileSystem :=
  match fetch with
  | .failure reason => (.fetchFailed reason, fs)
  | .success resp =>
    if contentTypeOk resp then
      let filename := resolvedFilename resp url
      let fs1 := makedirs fs downloadDir
      let filePath := osJoin downloadDir filename
      if pathExists fs1 filePath then (.skippedExisting filename, fs1)
      else if openFault then (.unexpectedError "open failed", fs1)
      else (.downloaded filename,
            { fs1 with files := (filePath, writtenContent resp) :: fs1.files })
    else (.skippedNotPdf, fs)

/-- The fixed site origin the driver prepends to links that are not valid
absolute URLs. -/
def baseOrigin : String := "https://mydentitycolor.com"

/-- The loop of main over the extracted candidate links: a link that the
validator accepts is skipped; any other link is prefixed with the site
origin and passed to download_pdf.  The validator, the transport and the
fault oracle are external collaborators passed as functions.  Returns the
attempted URL with its outcome, per attempt in order, and the final
filesystem. -/
def mainLoop (isValid : String → Bool) (fetchFor : String → FetchResult)
    (faultFor : String → Bool) (downloadDir : String) :
    List String → FileSystem → List (String × Outcome) × FileSystem
  | [], fs => ([], fs)
  | u :: rest, fs =>
    if isValid u then mainLoop isValid fetchFor faultFor downloadDir rest fs
    else
      let u2 := baseOrigin ++ u
      let r := download_pdf (fetchFor u2) u2 downloadDir fs (faultFor u2)
      let rec2 := mainLoop isValid fetchFor faultFor downloadDir rest r.2
      ((u2, r.1) :: rec2.1, rec2.2)

/-! ## Shared lemmas -/

theorem mainLoop_attempts (isValid : String → Bool) (fetchFor : String → FetchResult)
    (faultFor : String → Bool) (downloadDir : String) (urls : List String) (fs : FileSystem) :
    (mainLoop isValid fetchFor faultFor downloadDir urls fs).1.map Prod.fst
      = (urls.filter (fun u => !(isValid u))).map (fun u => baseOrigin ++ u) := by
  induction urls generalizing fs with
  | nil => rfl
  | cons u rest ih =>
    by_cases h : isValid u = true
    · simp [mainLoop, h, ih]
    · simp only [Bool.not_eq_true] at h
      simp [mainLoop, h, ih]

theorem parse_html_eq_filter (tags : List Anchor) :
    parse_html tags = (hrefValues tags).filter pdfHrefTest := by
  induction tags with
  | nil => rfl
  | cons t rest ih =>
    cases h : t.href with
    | none => simp [parse_html, hrefValues, List.filterMap_cons, h, ih]
    | some v =>
      by_cases hp : pdfHrefTest v = true
      · simp [parse_html, hrefValues, List.filterMap_cons, h, hp, ih]
      · simp only [Bool.not_eq_true] at hp
        simp [parse_html, hrefValues, List.filterMap_cons, h, hp, ih]

/-! ## Claim theorems (first group) -/

/-- C2: in the driver loop over the extracted candidate links, processed in
document order, a link that is already a valid absolute URL is skipped and
never downloaded, and every link that is not a valid absolute URL is
prefixed with the fixed site origin and passed to the downloader. -/
theorem mainLoop_skips_absolute_links (isValid : String → Bool)
    (fetchFor : String → FetchResult) (faultFor : String → Bool)
    (downloadDir : String) (urls : List String) (fs : FileSystem) :
    (mainLoop isValid fetchFor faultFor downloadDir urls fs).1.map Prod.fst
      = (urls.filter (fun u => !(isValid u))).map (fun u => baseOrigin ++ u) :=
  mainLoop_attempts isValid fetchFor faultFor downloadDir urls fs

/-- C4: link extraction returns exactly the original href values of the
anchors, in document order with duplicates preserved, keeping an href iff
its percent-decoded, lower-cased form ends with ".pdf"; in particular the
two-anchor example keeps only the percent-encoded PDF link. -/
theorem parse_html_keeps_decoded_pdf_hrefs (tags : List Anchor) :
    parse_html tags = (hrefValues tags).filter pdfHrefTest
    ∧ parse_html [⟨some "/docs/Report%2C1.pdf"⟩, ⟨some "/img.png"⟩]
        = ["/docs/Report%2C1.pdf"] :=
  ⟨parse_html_eq_filter tags, by decide⟩

/-- C5: a response whose Content-Type header does not contain
"application/pdf" case-insensitively (including an absent header) yields
the skipped-not-PDF outcome and no file is created or written, for every
URL. -/
theorem content_type_gate_skips (resp : HttpResponse) (url dir : String)
    (fs : FileSystem) (fault : Bool) (h : contentTypeOk resp = false) :
    (download_pdf (.success resp) url dir fs fault).1 = .skippedNotPdf
    ∧ ((download_pdf (.success resp) url dir fs fault).2).files = fs.files := by
  simp [download_pdf, h]

theorem content_type_gate_skips_witness :
    (download_pdf (.success ⟨[("Content-Type", "text/html")], [[1, 2]]⟩)
        "https://mydentitycolor.com/fake.pdf" "PDFs" ⟨[], []⟩ false).1 = .skippedNotPdf
    ∧ ((download_pdf (.success ⟨[("Content-Type", "text/html")], [[1, 2]]⟩)
        "https://mydentitycolor.com/fake.pdf" "PDFs" ⟨[], []⟩ false).2).files
        = (⟨[], []⟩ : FileSystem).files :=
  content_type_gate_skips ⟨[("Content-Type", "text/html")], [[1, 2]]⟩
    "https://mydentitycolor.com/fake.pdf" "PDFs" ⟨[], []⟩ false (by decide)

/-- C9: when the content-type gate rejects a response, the downloader
performs no filesystem effect at all: the returned filesystem, directories
included, is exactly the input filesystem. -/
theorem content_type_gate_frame (resp : HttpResponse) (url dir : String)
    (fs : FileSystem) (fault : Bool) (h : contentTypeOk resp = false) :
    download_pdf (.success resp) url dir fs fault = (.skippedNotPdf, fs) := by
  simp [download_pdf, h]

theorem content_type_gate_frame_witness :
    download_pdf (.success ⟨[], [[7]]⟩) "https://mydentitycolor.com/b.pdf" "PDFs"
        ⟨[("PDFs/old.pdf", [9])], ["PDFs"]⟩ false
      = (.skippedNotPdf, ⟨[("PDFs/old.pdf", [9])], ["PDFs"]⟩) :=
  content_type_gate_frame ⟨[], [[7]]⟩ "https://mydentitycolor.com/b.pdf" "PDFs"
    ⟨[("PDFs/old.pdf", [9])], ["PDFs"]⟩ false (by decide)

/-- C6: when the Content-Disposition value matches the extended RFC 5987
pattern, the filename is taken from the extended parameter's capture,
trimmed of surrounding quotes, whether or not the simple parameter also
matches. -/
theorem extended_parameter_priority (cd url : String) (v : List Char)
    (h : searchExt cd.data = some v) :
    resolveRawFilename cd url = String.mk (stripQuotes v) := by
  unfold resolveRawFilename
  rw [h]

theorem extended_parameter_priority_witness :
    searchSimple ("attachment; filename*=UTF-8''relatorio.pdf; filename=\"other.pdf\"").data
        ≠ none
    ∧ resolveRawFilename "attachment; filename*=UTF-8''relatorio.pdf; filename=\"other.pdf\""
        "https://example.com/x" = "relatorio.pdf" :=
  ⟨by decide,
   extended_parameter_priority
     "attachment; filename*=UTF-8''relatorio.pdf; filename=\"other.pdf\""
     "https://example.com/x" ("relatorio.pdf".data) (by decide)⟩

/-! ## Lemmas about the filesystem model -/

theorem makedirs_files (fs : FileSystem) (d : String) :
    (makedirs fs d).files = fs.files := by
  unfold makedirs; split <;> rfl

theorem makedirs_has (fs : FileSystem) (d : String) :
    (makedirs fs d).dirs.any (fun x => x == d) = true := by
  unfold makedirs
  split
  · assumption
  · simp

theorem makedirs_of_has (fs : FileSystem) (d : String)
    (h : fs.dirs.any (fun x => x == d) = true) : makedirs fs d = fs := by
  unfold makedirs; rw [if_pos h]

/-- C8: the downloader never propagates a failure: a transport-level
failure yields the fetch-failed outcome with the filesystem untouched, a
fault during a single download (once the gates pass) yields the
unexpected-error outcome, and the driver loop produces one outcome per
attempted link no matter what the outcomes are. -/
theorem download_reports_all_failures :
    (∀ (reason url dir : String) (fs : FileSystem) (fault : Bool),
        download_pdf (.failure reason) url dir fs fault = (.fetchFailed reason, fs))
    ∧ (∀ (resp : HttpResponse) (url dir : String) (fs : FileSystem),
        contentTypeOk resp = true →
        pathExists (makedirs fs dir) (osJoin dir (resolvedFilename resp url)) = false →
        (download_pdf (.success resp) url dir fs true).1 = .unexpectedError "open failed")
    ∧ (∀ (isValid : String → Bool) (fetchFor : String → FetchResult)
        (faultFor : String → Bool) (dir : String) (urls : List String) (fs : FileSystem),
        (mainLoop isValid fetchFor faultFor dir urls fs).1.length
          = (urls.filter (fun u => !(isValid u))).length) := by
  refine ⟨fun reason url dir fs fault => rfl, ?_, ?_⟩
  · intro resp url dir fs h1 h2
    simp [download_pdf, h1, h2]
  · intro isValid fetchFor faultFor dir urls fs
    have h := congrArg List.length (mainLoop_attempts isValid fetchFor faultFor dir urls fs)
    simpa using h

theorem download_reports_all_failures_witness :
    (download_pdf (.success ⟨[("Content-Type", "application/pdf")], [[3]]⟩)
        "https://mydentitycolor.com/a.pdf" "PDFs" ⟨[], []⟩ true).1
      = .unexpectedError "open failed" :=
  download_reports_all_failures.2.1 ⟨[("Content-Type", "application/pdf")], [[3]]⟩
    "https://mydentitycolor.com/a.pdf" "PDFs" ⟨[], []⟩ (by decide) (by decide)

/-- C7: a download attempt whose resolved target path already exists yields
the skipped-existing outcome and leaves every file, the existing one
included, unchanged; consequently replaying a download that just succeeded
yields skipped-existing with no further change. -/
theorem existing_file_never_overwritten :
    (∀ (resp : HttpResponse) (url dir : String) (fs : FileSystem) (fault : Bool),
        contentTypeOk resp = true →
        pathExists (makedirs fs dir) (osJoin dir (resolvedFilename resp url)) = true →
        download_pdf (.success resp) url dir fs fault
          = (.skippedExisting (resolvedFilename resp url), makedirs fs dir)
        ∧ (makedirs fs dir).files = fs.files)
    ∧ (∀ (fetch : FetchResult) (url dir : String) (fs : FileSystem) (fault : Bool)
        (fn : String) (fs2 : FileSystem),
        download_pdf fetch url dir fs fault = (.downloaded fn, fs2) →
        download_pdf fetch url dir fs2 fault = (.skippedExisting fn, fs2)) := by
  constructor
  · intro resp url dir fs fault h1 h2
    refine ⟨?_, makedirs_files fs dir⟩
    simp [download_pdf, h1, h2]
  · intro fetch url dir fs fault fn fs2 h
    cases fetch with
    | failure r => simp [download_pdf] at h
    | success resp =>
      by_cases hct : contentTypeOk resp = true
      · simp only [download_pdf, hct, if_true] at h
        split at h
        · simp at h
        · split at h
          · simp at h
          · rw [Prod.mk.injEq, Outcome.downloaded.injEq] at h
            obtain ⟨hfn, hfs2⟩ := h
            subst hfn
            have hdirs : fs2.dirs.any (fun x => x == dir) = true := by
              rw [← hfs2]
              exact makedirs_has fs dir
            have hmk : makedirs fs2 dir = fs2 := makedirs_of_has fs2 dir hdirs
            have hex : pathExists fs2 (osJoin dir (resolvedFilename resp url)) = true := by
              rw [← hfs2]
              simp [pathExists]
            simp [download_pdf, hct, hmk, hex]
      · simp only [Bool.not_eq_true] at hct
        simp [download_pdf, hct] at h

theorem existing_file_never_overwritten_witness :
    download_pdf (.success ⟨[("Content-Type", "application/pdf")], [[1, 2, 3]]⟩)
        "https://mydentitycolor.com/a.pdf" "PDFs"
        ⟨[("PDFs/a.pdf", [1, 2, 3])], ["PDFs"]⟩ false
      = (.skippedExisting "a.pdf", ⟨[("PDFs/a.pdf", [1, 2, 3])], ["PDFs"]⟩) :=
  existing_file_never_overwritten.2
    (.success ⟨[("Content-Type", "application/pdf")], [[1, 2, 3]]⟩)
    "https://mydentitycolor.com/a.pdf" "PDFs" ⟨[], []⟩ false "a.pdf"
    ⟨[("PDFs/a.pdf", [1, 2, 3])], ["PDFs"]⟩ (by decide)

/-! ## Lemmas about characters and lower-casing -/

theorem toNat_ofNat_lt (n : Nat) (h : n < 55296) : (Char.ofNat n).toNat = n := by
  unfold Char.ofNat
  rw [dif_pos (Or.inl h)]
  rfl

theorem lowerChar_eq_self (c : Char) (h : c.toNat < 65 ∨ 90 < c.toNat) :
    lowerChar c = c := by
  unfold lowerChar Char.toLower
  rw [if_neg (by omega)]

theorem lowerChar_toNat_of_upper (c : Char) (h1 : 65 ≤ c.toNat) (h2 : c.toNat ≤ 90) :
    (lowerChar c).toNat = c.toNat + 32 := by
  unfold lowerChar Char.toLower
  rw [if_pos ⟨h1, h2⟩]
  exact toNat_ofNat_lt _ (by omega)

theorem lowerChar_idem (c : Char) : lowerChar (lowerChar c) = lowerChar c := by
  by_cases h : 65 ≤ c.toNat ∧ c.toNat ≤ 90
  · have h2 := lowerChar_toNat_of_upper c h.1 h.2
    exact lowerChar_eq_self _ (by omega)
  · have hc : lowerChar c = c := lowerChar_eq_self c (by omega)
    rw [hc, hc]

theorem lowerChar_eq_of_low (c d : Char) (hd : d.toNat < 97 ∨ 122 < d.toNat)
    (h : lowerChar c = d) : c = d := by
  by_cases hc : 65 ≤ c.toNat ∧ c.toNat ≤ 90
  · exfalso
    have h2 := lowerChar_toNat_of_upper c hc.1 hc.2
    rw [h] at h2
    omega
  · rw [← h]
    exact (lowerChar_eq_self c (by omega)).symm

theorem stemCharOk_toNat (c : Char) (h : stemCharOk c = true) :
    97 ≤ c.toNat ∧ c.toNat ≤ 122 ∨ 48 ≤ c.toNat ∧ c.toNat ≤ 57 ∨ c.toNat = 95 := by
  simp only [stemCharOk, isLowerAlnum, Bool.or_eq_true, Bool.and_eq_true,
    decide_eq_true_eq, beq_iff_eq] at h
  rcases h with (h | h) | h
  · exact Or.inl h
  · exact Or.inr (Or.inl h)
  · subst h
    exact Or.inr (Or.inr rfl)

theorem lowerChar_fixes (c : Char) (h : stemCharOk c = true) : lowerChar c = c := by
  have h2 := stemCharOk_toNat c h
  exact lowerChar_eq_self c (by omega)

theorem subChar_fixes (c : Char) (h : stemCharOk c = true) : subChar c = c := by
  unfold subChar
  split
  · rfl
  · rename_i hn
    simp only [stemCharOk, Bool.or_eq_true] at h
    rcases h with h | h
    · exact absurd h hn
    · rw [beq_iff_eq] at h
      subst h
      rfl

theorem stemCharOk_subChar (c : Char) : stemCharOk (subChar c) = true := by
  unfold subChar
  split
  · rename_i hp
    simp [stemCharOk, hp]
  · decide

/-! ## Lemmas about the underscore pipeline -/

theorem map_id_of_fixes {f : Char → Char} :
    ∀ l : List Char, (∀ c ∈ l, f c = c) → l.map f = l := by
  intro l
  induction l with
  | nil => intro _; rfl
  | cons a rest ih =>
    intro h
    simp only [List.map_cons]
    rw [h a (List.mem_cons_self a rest), ih (fun c hc => h c (List.mem_cons_of_mem a hc))]

theorem all_collapseUS (p : Char → Bool) :
    ∀ l : List Char, l.all p = true → (collapseUS l).all p = true := by
  intro l
  induction l with
  | nil => exact fun h => h
  | cons a rest ih =>
    cases rest with
    | nil => exact fun h => h
    | cons b r2 =>
      intro h
      simp only [List.all_cons, Bool.and_eq_true] at h
      obtain ⟨ha, hb, hr⟩ := h
      simp only [collapseUS]
      split
      · exact ih (by simp [List.all_cons, hb, hr])
      · simp only [List.all_cons, Bool.and_eq_true]
        exact ⟨ha, ih (by simp [List.all_cons, hb, hr])⟩

theorem dropTrailingUS_append : ∀ l : List Char, ∃ t, l = dropTrailingUS l ++ t := by
  intro l
  induction l with
  | nil => exact ⟨[], rfl⟩
  | cons c rest ih =>
    obtain ⟨t, ht⟩ := ih
    cases hr : dropTrailingUS rest with
    | nil =>
      by_cases hc : (c == '_') = true
      · refine ⟨c :: rest, ?_⟩
        simp only [dropTrailingUS, hr]
        rw [if_pos hc]
        simp
      · refine ⟨rest, ?_⟩
        simp only [dropTrailingUS, hr]
        rw [if_neg hc]
        simp
    | cons x xs =>
      rw [hr] at ht
      refine ⟨t, ?_⟩
      simp only [dropTrailingUS, hr]
      simpa using ht

theorem all_of_sublist {p : Char → Bool} {l₁ l₂ : List Char}
    (hs : List.Sublist l₁ l₂) (h : l₂.all p = true) : l₁.all p = true := by
  simp only [List.all_eq_true] at h ⊢
  exact fun c hc => h c (hs.subset hc)

theorem all_append_left {p : Char → Bool} {l t : List Char}
    (h : (l ++ t).all p = true) : l.all p = true := by
  simp only [List.all_append, Bool.and_eq_true] at h
  exact h.1

theorem all_stripUS (p : Char → Bool) (l : List Char) (h : l.all p = true) :
    (stripUS l).all p = true := by
  unfold stripUS
  have h1 : (l.dropWhile (fun c => c == '_')).all p = true :=
    all_of_sublist (List.dropWhile_sublist _) h
  obtain ⟨t, ht⟩ := dropTrailingUS_append (l.dropWhile (fun c => c == '_'))
  rw [ht] at h1
  exact all_append_left h1

theorem sanStem_all (n : List Char) : (sanStem n).all stemCharOk = true := by
  unfold sanStem
  apply all_stripUS
  apply all_collapseUS
  simp only [List.all_map, List.all_eq_true, Function.comp]
  intro c _
  exact stemCharOk_subChar (lowerChar c)

theorem collapseUS_head : ∀ (l : List Char) (a : Char),
    (collapseUS (a :: l)).head? = some a := by
  intro l
  induction l with
  | nil => intro a; rfl
  | cons b r2 ih =>
    intro a
    simp only [collapseUS]
    split
    · rename_i hab
      rw [Bool.and_eq_true, beq_iff_eq, beq_iff_eq] at hab
      rw [ih b, hab.1, hab.2]
    · rfl

theorem noDoubleUS_collapseUS : ∀ l : List Char, noDoubleUS (collapseUS l) = true := by
  intro l
  induction l with
  | nil => rfl
  | cons a rest ih =>
    cases rest with
    | nil => rfl
    | cons b r2 =>
      simp only [collapseUS]
      split
      · exact ih
      · rename_i hab
        cases hX : collapseUS (b :: r2) with
        | nil => rfl
        | cons x xs =>
          have hx : x = b := by
            have h2 := collapseUS_head r2 b
            rw [hX] at h2
            simpa using h2
          subst hx
          simp only [noDoubleUS, Bool.and_eq_true]
          constructor
          · simp only [Bool.not_eq_true] at hab
            simp [hab]
          · rw [← hX]
            exact ih

theorem noDoubleUS_append_left : ∀ l t : List Char,
    noDoubleUS (l ++ t) = true → noDoubleUS l = true := by
  intro l t
  induction l with
  | nil => intro _; rfl
  | cons a rest ih =>
    cases rest with
    | nil => intro _; rfl
    | cons b r2 =>
      intro h
      simp only [List.cons_append, noDoubleUS, Bool.and_eq_true] at h ⊢
      exact ⟨h.1, ih (by simpa using h.2)⟩

theorem noDoubleUS_tail (a : Char) (l : List Char)
    (h : noDoubleUS (a :: l) = true) : noDoubleUS l = true := by
  cases l with
  | nil => rfl
  | cons b r2 =>
    simp only [noDoubleUS, Bool.and_eq_true] at h
    exact h.2

theorem noDoubleUS_dropWhile (p : Char → Bool) :
    ∀ l : List Char, noDoubleUS l = true → noDoubleUS (l.dropWhile p) = true := by
  intro l
  induction l with
  | nil => intro _; rfl
  | cons a rest ih =>
    intro h
    by_cases hp : p a = true
    · simp only [List.dropWhile_cons, hp, if_true]
      exact ih (noDoubleUS_tail a rest h)
    · rw [Bool.not_eq_true] at hp
      simp only [List.dropWhile_cons, hp, Bool.false_eq_true, if_false]
      exact h

theorem noDoubleUS_stripUS (l : List Char) (h : noDoubleUS l = true) :
    noDoubleUS (stripUS l) = true := by
  unfold stripUS
  have h1 := noDoubleUS_dropWhile (fun c => c == '_') l h
  obtain ⟨t, ht⟩ := dropTrailingUS_append (l.dropWhile (fun c => c == '_'))
  rw [ht] at h1
  exact noDoubleUS_append_left _ t h1

theorem sanStem_noDouble (n : List Char) : noDoubleUS (sanStem n) = true := by
  unfold sanStem
  exact noDoubleUS_stripUS _ (noDoubleUS_collapseUS _)

theorem head_dropWhileUS : ∀ l : List Char,
    notUSopt ((l.dropWhile (fun c => c == '_')).head?) = true := by
  intro l
  induction l with
  | nil => rfl
  | cons a rest ih =>
    by_cases hp : (a == '_') = true
    · simp only [List.dropWhile_cons, hp, if_true]
      exact ih
    · rw [Bool.not_eq_true] at hp
      simp only [List.dropWhile_cons, hp, Bool.false_eq_true, if_false,
        List.head?_cons, notUSopt, bne]
      simp [hp]

theorem lastOpt_dropTrailingUS : ∀ l : List Char,
    notUSopt (lastOpt (dropTrailingUS l)) = true := by
  intro l
  induction l with
  | nil => rfl
  | cons c rest ih =>
    cases hr : dropTrailingUS rest with
    | nil =>
      by_cases hc : (c == '_') = true
      · simp only [dropTrailingUS, hr]
        rw [if_pos hc]
        rfl
      · simp only [dropTrailingUS, hr]
        rw [if_neg hc]
        rw [Bool.not_eq_true] at hc
        simp only [lastOpt, notUSopt, bne]
        simp [hc]
    | cons x xs =>
      simp only [dropTrailingUS, hr]
      rw [hr] at ih
      simpa only [lastOpt] using ih

theorem head_dropTrailingUS (l : List Char) :
    (dropTrailingUS l).head? = l.head? ∨ dropTrailingUS l = [] := by
  cases l with
  | nil => exact Or.inr rfl
  | cons c rest =>
    cases hr : dropTrailingUS rest with
    | nil =>
      by_cases hc : (c == '_') = true
      · simp only [dropTrailingUS, hr]
        rw [if_pos hc]
        exact Or.inr rfl
      · simp only [dropTrailingUS, hr]
        rw [if_neg hc]
        exact Or.inl rfl
    | cons x xs =>
      simp only [dropTrailingUS, hr]
      exact Or.inl rfl

theorem notUSopt_head_stripUS (l : List Char) :
    notUSopt ((stripUS l).head?) = true := by
  unfold stripUS
  rcases head_dropTrailingUS (l.dropWhile (fun c => c == '_')) with h | h
  · rw [h]
    exact head_dropWhileUS l
  · rw [h]
    rfl

theorem sanStem_noEdge (n : List Char) : noEdgeUS (sanStem n) = true := by
  unfold noEdgeUS
  rw [Bool.and_eq_true]
  constructor
  · unfold sanStem
    exact notUSopt_head_stripUS _
  · unfold sanStem stripUS
    exact lastOpt_dropTrailingUS _

/-- C1 (amended): for every filename, the sanitized result is the sanitized
stem followed by the lower-cased extension; the stem consists only of
lower-case letters, digits and underscores, with no consecutive and no edge
underscores; and the result is non-empty whenever the sanitized stem or the
extension is non-empty.  (A filename whose stem sanitizes to nothing and
which has no extension, such as "--", sanitizes to the empty string.) -/
theorem sanitize_output_wellformed (f : String) :
    (sanitizeFilename f).data
        = sanStem (splitextList f.data).1 ++ (splitextList f.data).2.map lowerChar
    ∧ (sanStem (splitextList f.data).1).all stemCharOk = true
    ∧ noDoubleUS (sanStem (splitextList f.data).1) = true
    ∧ noEdgeUS (sanStem (splitextList f.data).1) = true
    ∧ (sanStem (splitextList f.data).1 ≠ [] ∨ (splitextList f.data).2 ≠ []
        → sanitizeFilename f ≠ "") := by
  refine ⟨rfl, sanStem_all _, sanStem_noDouble _, sanStem_noEdge _, ?_⟩
  intro h hemp
  have hdata : (sanitizeFilename f).data = [] := by rw [hemp]
  have hd2 : sanStem (splitextList f.data).1 ++ (splitextList f.data).2.map lowerChar
      = ([] : List Char) := hdata
  rw [List.append_eq_nil] at hd2
  rcases h with h | h
  · exact h hd2.1
  · exact h (List.map_eq_nil_iff.mp hd2.2)

theorem sanitize_output_wellformed_witness :
    (sanStem (splitextList ("My Report (Final).PDF").data).1 ≠ []
      ∨ (splitextList ("My Report (Final).PDF").data).2 ≠ [])
    ∧ sanitizeFilename "My Report (Final).PDF" ≠ "" :=
  ⟨by decide, (sanitize_output_wellformed "My Report (Final).PDF").2.2.2.2 (by decide)⟩

/-- C1 counterexample: the filename "--" is produced by the resolution path
(simple Content-Disposition parameter), and its sanitized result is the
empty string, refuting the non-emptiness part of the claim as stated. -/
theorem sanitize_empty_output_counterexample :
    resolveRawFilename "attachment; filename=--" "https://mydentitycolor.com/x" = "--"
    ∧ sanitizeFilename "--" = "" := by
  constructor
  · decide
  · decide

/-! ## Fixpoint lemmas for the sanitizer -/

theorem collapseUS_fixes : ∀ l : List Char, noDoubleUS l = true → collapseUS l = l := by
  intro l
  induction l with
  | nil => intro _; rfl
  | cons a rest ih =>
    cases rest with
    | nil => intro _; rfl
    | cons b r2 =>
      intro h
      simp only [noDoubleUS, Bool.and_eq_true] at h
      have hne : (a == '_' && b == '_') = false := by
        have h4 := h.1
        rwa [Bool.not_eq_true'] at h4
      simp only [collapseUS]
      rw [if_neg (by simp [hne]), ih h.2]

theorem dropWhileUS_fixes (l : List Char) (h : notUSopt l.head? = true) :
    l.dropWhile (fun c => c == '_') = l := by
  cases l with
  | nil => rfl
  | cons c rest =>
    simp only [List.head?_cons, notUSopt, bne] at h
    simp only [List.dropWhile_cons]
    rw [if_neg (by simpa using h)]

theorem dropTrailingUS_fixes : ∀ l : List Char,
    notUSopt (lastOpt l) = true → dropTrailingUS l = l := by
  intro l
  induction l with
  | nil => intro _; rfl
  | cons c rest ih =>
    intro h
    cases hrest : rest with
    | nil =>
      subst hrest
      simp only [lastOpt, notUSopt, bne] at h
      simp only [dropTrailingUS]
      rw [if_neg (by simpa using h)]
    | cons x xs =>
      subst hrest
      simp only [lastOpt] at h
      have hr := ih (by simpa only [lastOpt] using h)
      have hm : dropTrailingUS (c :: x :: xs)
          = match dropTrailingUS (x :: xs) with
            | [] => if c == '_' then [] else [c]
            | r => c :: r := rfl
      rw [hm, hr]

theorem sanStem_fixes (l : List Char) (h1 : l.all stemCharOk = true)
    (h2 : noDoubleUS l = true) (h3 : noEdgeUS l = true) : sanStem l = l := by
  unfold sanStem
  have hmap : l.map (fun c => subChar (lowerChar c)) = l := by
    apply map_id_of_fixes
    intro c hc
    have hok : stemCharOk c = true := by
      rw [List.all_eq_true] at h1
      exact h1 c hc
    rw [lowerChar_fixes c hok, subChar_fixes c hok]
  rw [hmap, collapseUS_fixes l h2]
  unfold noEdgeUS at h3
  rw [Bool.and_eq_true] at h3
  unfold stripUS
  rw [dropWhileUS_fixes l h3.1, dropTrailingUS_fixes l h3.2]

theorem sanStem_idem (n : List Char) : sanStem (sanStem n) = sanStem n :=
  sanStem_fixes _ (sanStem_all n) (sanStem_noDouble n) (sanStem_noEdge n)

/-! ## Lemmas about splitLast and splitext -/

theorem splitLast_none (c : Char) : ∀ l : List Char, splitLast c l = none → c ∉ l := by
  intro l
  induction l with
  | nil => intro _ h; exact absurd h (List.not_mem_nil c)
  | cons a rest ih =>
    intro h
    simp only [splitLast] at h
    cases hr : splitLast c rest with
    | some pr => rw [hr] at h; exact absurd h (by simp)
    | none =>
      rw [hr] at h
      by_cases hac : (a == c) = true
      · rw [if_pos hac] at h
        exact absurd h (by simp)
      · intro hmem
        rcases List.mem_cons.mp hmem with he | he
        · rw [beq_iff_eq] at hac
          exact hac he.symm
        · exact ih hr he

theorem splitLast_not_mem (c : Char) : ∀ l : List Char, c ∉ l → splitLast c l = none := by
  intro l
  induction l with
  | nil => intro _; rfl
  | cons a rest ih =>
    intro h
    have ha : a ≠ c := fun he => h (he ▸ List.mem_cons_self a rest)
    have hr : c ∉ rest := fun hm => h (List.mem_cons_of_mem a hm)
    simp only [splitLast, ih hr]
    rw [if_neg (by simpa using ha)]

theorem splitLast_some (c : Char) : ∀ (l pre suf : List Char),
    splitLast c l = some (pre, suf) →
    l = pre ++ suf ∧ ∃ t, suf = c :: t ∧ c ∉ t := by
  intro l
  induction l with
  | nil => intro pre suf h; exact absurd h (by simp [splitLast])
  | cons a rest ih =>
    intro pre suf h
    simp only [splitLast] at h
    cases hr : splitLast c rest with
    | some pr =>
      rw [hr] at h
      obtain ⟨pre1, suf1⟩ := pr
      simp only [Option.some.injEq, Prod.mk.injEq] at h
      obtain ⟨hp, hs⟩ := h
      obtain ⟨heq, t, hsuf, hnot⟩ := ih pre1 suf1 hr
      subst hp
      subst hs
      exact ⟨by rw [heq, List.cons_append], t, hsuf, hnot⟩
    | none =>
      rw [hr] at h
      by_cases hac : (a == c) = true
      · rw [if_pos hac] at h
        simp only [Option.some.injEq, Prod.mk.injEq] at h
        obtain ⟨hp, hs⟩ := h
        subst hp
        subst hs
        rw [beq_iff_eq] at hac
        subst hac
        exact ⟨rfl, rest, rfl, splitLast_none a rest hr⟩
      · rw [if_neg hac] at h
        exact absurd h (by simp)

theorem splitLast_append (c : Char) : ∀ (s t : List Char), c ∉ t →
    splitLast c (s ++ c :: t) = some (s, c :: t) := by
  intro s
  induction s with
  | nil =>
    intro t ht
    simp only [List.nil_append, splitLast, splitLast_not_mem c t ht]
    rw [if_pos (by simp)]
  | cons a s2 ih =>
    intro t ht
    simp only [List.cons_append, splitLast, List.append_eq, ih t ht]

theorem splitextBase_clean (s : List Char) (h : '.' ∉ s) : splitextBase s = (s, []) := by
  unfold splitextBase
  rw [splitLast_not_mem '.' s h]

theorem splitextList_clean (s : List Char) (h1 : '.' ∉ s) (h2 : '/' ∉ s) :
    splitextList s = (s, []) := by
  unfold splitextList
  rw [splitLast_not_mem '/' s h2]
  exact splitextBase_clean s h1

theorem splitextList_recombine (s t : List Char) (hs : s ≠ [])
    (hsd : '.' ∉ s) (hss : '/' ∉ s) (htd : '.' ∉ t) (hts : '/' ∉ t) :
    splitextList (s ++ '.' :: t) = (s, '.' :: t) := by
  have hnos : '/' ∉ s ++ '.' :: t := by
    intro hmem
    rcases List.mem_append.mp hmem with h | h
    · exact hss h
    · rcases List.mem_cons.mp h with h | h
      · exact absurd h (by decide)
      · exact hts h
  have hdot : splitLast '.' (s ++ '.' :: t) = some (s, '.' :: t) :=
    splitLast_append '.' s t htd
  have hany : (s.any fun c => c != '.') = true := by
    cases s with
    | nil => exact absurd rfl hs
    | cons x s2 =>
      have hx : x ≠ '.' := fun he => hsd (he ▸ List.mem_cons_self x s2)
      simp only [List.any_cons, Bool.or_eq_true]
      exact Or.inl (by simpa using hx)
  simp only [splitextList, splitextBase, splitLast_not_mem '/' _ hnos, hdot, hany, if_true]

theorem splitextBase_ext_spec (base : List Char) (hb : '/' ∉ base) :
    (splitextBase base).2 = []
    ∨ ∃ t, (splitextBase base).2 = '.' :: t ∧ '.' ∉ t ∧ '/' ∉ t := by
  cases hsd : splitLast '.' base with
  | none =>
    rw [splitextBase_clean base (splitLast_none '.' base hsd)]
    exact Or.inl rfl
  | some pr =>
    obtain ⟨pre, suf⟩ := pr
    obtain ⟨heq, t, hsuf, hnot⟩ := splitLast_some '.' base pre suf hsd
    by_cases hany : (pre.any fun c => c != '.') = true
    · have hsb : splitextBase base = (pre, suf) := by
        simp only [splitextBase, hsd]
        rw [if_pos hany]
      rw [hsb]
      refine Or.inr ⟨t, hsuf, hnot, ?_⟩
      intro hmem
      apply hb
      rw [heq, hsuf]
      exact List.mem_append.mpr (Or.inr (List.mem_cons_of_mem '.' hmem))
    · have hsb : splitextBase base = (base, []) := by
        simp only [splitextBase, hsd]
        rw [if_neg hany]
      rw [hsb]
      exact Or.inl rfl

theorem splitextList_ext_spec (p : List Char) :
    (splitextList p).2 = []
    ∨ ∃ t, (splitextList p).2 = '.' :: t ∧ '.' ∉ t ∧ '/' ∉ t := by
  cases hsl : splitLast '/' p with
  | none =>
    have h2 : splitextList p = splitextBase p := by
      simp only [splitextList, hsl]
    rw [h2]
    exact splitextBase_ext_spec p (splitLast_none '/' p hsl)
  | some pr =>
    obtain ⟨pre, suf⟩ := pr
    obtain ⟨heq, t, hsuf, hnot⟩ := splitLast_some '/' p pre suf hsl
    subst hsuf
    have h2 : splitextList p
        = (pre ++ '/' :: (splitextBase t).1, (splitextBase t).2) := by
      simp only [splitextList, hsl]
    rw [h2]
    simpa using splitextBase_ext_spec t hnot

theorem not_mem_sanStem (n : List Char) (c : Char) (hc : stemCharOk c = false) :
    c ∉ sanStem n := by
  intro hmem
  have h := sanStem_all n
  rw [List.all_eq_true] at h
  have h2 := h c hmem
  rw [hc] at h2
  exact absurd h2 (by simp)

theorem not_mem_map_lowerChar (t : List Char) (d : Char)
    (hd : d.toNat < 97 ∨ 122 < d.toNat) (h : d ∉ t) : d ∉ t.map lowerChar := by
  intro hmem
  rcases List.mem_map.mp hmem with ⟨a, ha, hla⟩
  have h2 : a = d := lowerChar_eq_of_low a d hd hla
  exact h (h2 ▸ ha)

theorem sanitizeFilename_mk_noext (s : List Char)
    (hall : s.all stemCharOk = true) (hnd : noDoubleUS s = true)
    (hne2 : noEdgeUS s = true) (hdot : '.' ∉ s) (hslash : '/' ∉ s) :
    sanitizeFilename (String.mk s) = String.mk s := by
  have key : sanitizeFilename (String.mk s)
      = String.mk (sanStem (splitextList s).1 ++ (splitextList s).2.map lowerChar) := rfl
  rw [key, splitextList_clean s hdot hslash]
  simp only [List.map_nil, List.append_nil]
  rw [sanStem_fixes s hall hnd hne2]

theorem sanitizeFilename_mk_ext (s t : List Char) (hsne : s ≠ [])
    (hall : s.all stemCharOk = true) (hnd : noDoubleUS s = true)
    (hne2 : noEdgeUS s = true) (hdot : '.' ∉ s) (hslash : '/' ∉ s)
    (htd : '.' ∉ t) (hts : '/' ∉ t) (hmap : t.map lowerChar = t) :
    sanitizeFilename (String.mk (s ++ '.' :: t)) = String.mk (s ++ '.' :: t) := by
  have key : sanitizeFilename (String.mk (s ++ '.' :: t))
      = String.mk (sanStem (splitextList (s ++ '.' :: t)).1
          ++ (splitextList (s ++ '.' :: t)).2.map lowerChar) := rfl
  rw [key, splitextList_recombine s t hsne hdot hslash htd hts]
  simp only [List.map_cons]
  have hld : lowerChar '.' = '.' := by decide
  rw [sanStem_fixes s hall hnd hne2, hld, hmap]

/-- C10 (amended): the sanitization transformation is idempotent on every
filename whose stem sanitizes to a non-empty string, and on every filename
without an extension; when the stem sanitizes to nothing while the
extension is non-empty (such as "!.PDF", which sanitizes to ".pdf"), a
second application differs. -/
theorem sanitize_idempotent_amended (f : String)
    (h : sanStem (splitextList f.data).1 ≠ [] ∨ (splitextList f.data).2 = []) :
    sanitizeFilename (sanitizeFilename f) = sanitizeFilename f := by
  have key : sanitizeFilename f
      = String.mk (sanStem (splitextList f.data).1
          ++ (splitextList f.data).2.map lowerChar) := rfl
  have hdot : '.' ∉ sanStem (splitextList f.data).1 :=
    not_mem_sanStem _ '.' (by decide)
  have hslash : '/' ∉ sanStem (splitextList f.data).1 :=
    not_mem_sanStem _ '/' (by decide)
  rcases splitextList_ext_spec f.data with hE | ⟨t, hE, htd, hts⟩
  · rw [key, hE]
    simp only [List.map_nil, List.append_nil]
    exact sanitizeFilename_mk_noext _ (sanStem_all _) (sanStem_noDouble _)
      (sanStem_noEdge _) hdot hslash
  · have hsne : sanStem (splitextList f.data).1 ≠ [] := by
      rcases h with h | h
      · exact h
      · rw [h] at hE
        exact absurd hE (by simp)
    rw [key, hE]
    simp only [List.map_cons]
    have hld : lowerChar '.' = '.' := by decide
    rw [hld]
    have hmap : (t.map lowerChar).map lowerChar = t.map lowerChar := by
      apply map_id_of_fixes
      intro c hc
      rcases List.mem_map.mp hc with ⟨a, _, rfl⟩
      exact lowerChar_idem a
    exact sanitizeFilename_mk_ext _ _ hsne (sanStem_all _) (sanStem_noDouble _)
      (sanStem_noEdge _) hdot hslash
      (not_mem_map_lowerChar t '.' (by decide) htd)
      (not_mem_map_lowerChar t '/' (by decide) hts) hmap

theorem sanitize_idempotent_amended_witness :
    sanitizeFilename (sanitizeFilename "Report v2.PDF") = sanitizeFilename "Report v2.PDF" :=
  sanitize_idempotent_amended "Report v2.PDF" (by decide)

/-- C10 counterexample: sanitization is not idempotent as claimed; the
filename "!.PDF" sanitizes to ".pdf", which a second application turns
into "pdf". -/
theorem sanitize_not_idempotent_counterexample :
    sanitizeFilename "!.PDF" = ".pdf"
    ∧ sanitizeFilename (sanitizeFilename "!.PDF") = "pdf"
    ∧ sanitizeFilename (sanitizeFilename "!.PDF") ≠ sanitizeFilename "!.PDF" :=
  ⟨by decide, by decide, by decide⟩

/-! ## Suffix lemmas and the URL fallback -/

theorem startsWithList_iff : ∀ pat s : List Char,
    startsWithList pat s = true ↔ ∃ t, s = pat ++ t := by
  intro pat
  induction pat with
  | nil =>
    intro s
    simp only [startsWithList, List.nil_append, true_iff]
    exact ⟨s, rfl⟩
  | cons p ps ih =>
    intro s
    cases s with
    | nil =>
      simp only [startsWithList]
      constructor
      · intro h
        exact absurd h (by simp)
      · rintro ⟨t, ht⟩
        exact absurd ht (by simp)
    | cons x xs =>
      simp only [startsWithList, Bool.and_eq_true, beq_iff_eq, List.cons_append]
      constructor
      · rintro ⟨hpx, hs⟩
        rcases (ih xs).mp hs with ⟨t, rfl⟩
        exact ⟨t, by rw [hpx]⟩
      · rintro ⟨t, ht⟩
        simp only [List.cons.injEq] at ht
        exact ⟨ht.1.symm, (ih xs).mpr ⟨t, ht.2⟩⟩

theorem endsWithList_iff (suf l : List Char) :
    endsWithList suf l = true ↔ ∃ t, l = t ++ suf := by
  unfold endsWithList
  rw [startsWithList_iff]
  constructor
  · rintro ⟨t, ht⟩
    refine ⟨t.reverse, ?_⟩
    have h2 := congrArg List.reverse ht
    simpa using h2
  · rintro ⟨t, rfl⟩
    exact ⟨t.reverse, by simp⟩

/-- C3 (amended): when no Content-Disposition parameter matches, the
resolved filename before sanitization is the last path segment of the
source URL, with ".pdf" appended exactly when that segment does not already
end in ".pdf" compared case-SENSITIVELY (so the lower-cased result always
ends in ".pdf"); for source URL https://example.com/files/guide the
resolved filename is guide.pdf. -/
theorem fallback_filename_case_sensitive (url : String) :
    fallbackFilename url
      = (if endsWithList (".pdf").data (lastPathSegment url)
         then String.mk (lastPathSegment url)
         else String.mk (lastPathSegment url ++ (".pdf").data))
    ∧ endsWithList (".pdf").data ((fallbackFilename url).data.map lowerChar) = true
    ∧ fallbackFilename "https://example.com/files/guide" = "guide.pdf" := by
  refine ⟨rfl, ?_, by decide⟩
  unfold fallbackFilename
  by_cases h : endsWithList (".pdf").data (lastPathSegment url) = true
  · rw [if_pos h]
    rcases (endsWithList_iff _ _).mp h with ⟨t, ht⟩
    rw [endsWithList_iff]
    refine ⟨t.map lowerChar, ?_⟩
    show (lastPathSegment url).map lowerChar = t.map lowerChar ++ (".pdf").data
    rw [ht, List.map_append]
    congr 1
  · rw [if_neg h]
    rw [endsWithList_iff]
    refine ⟨(lastPathSegment url).map lowerChar, ?_⟩
    show ((lastPathSegment url) ++ (".pdf").data).map lowerChar
        = (lastPathSegment url).map lowerChar ++ (".pdf").data
    rw [List.map_append]
    congr 1

/-- C3 counterexample: for source URL https://example.com/files/GUIDE.PDF
the last path segment already ends in ".pdf" case-insensitively, yet the
code appends ".pdf" because its endswith test is exact, resolving to
GUIDE.PDF.pdf rather than leaving GUIDE.PDF as the claim requires. -/
theorem fallback_case_insensitive_counterexample :
    lastPathSegment "https://example.com/files/GUIDE.PDF" = ("GUIDE.PDF").data
    ∧ endsWithList (".pdf").data (("GUIDE.PDF").data.map lowerChar) = true
    ∧ fallbackFilename "https://example.com/files/GUIDE.PDF" = "GUIDE.PDF.pdf" :=
  ⟨by decide, by decide, by decide⟩
